import Mathlib

/-!
Verification of the block-structured double-ended queue implemented in
`types/deque.go` (a port of juju's block-64 deque, with an added `Each`
traversal).  The Go structure is embedded shallowly: the `container/list`
of blocks becomes a `List` of blocks (head = front), each block (a Go
slice of length 64 holding `interface{}` values, `nil` for empty slots)
becomes a `List (Option α)` of length 64, the mutating methods become
state-passing functions, and the Go `int` cursors become `Int`.
-/

/-- blockLen from the source: blocks hold 64 slots. -/
def blockLen : Nat := 64

/-- blockCenter from the source: `(blockLen - 1) / 2 = 31`. -/
def blockCenter : Nat := (blockLen - 1) / 2

/-- blockT: a block is a fixed-size array of slots; an unoccupied slot holds
Go `nil`, modelled as `none`. -/
abbrev Block (α : Type) : Type := List (Option α)

/-- Deque from the source: a doubly-linked list of blocks (modelled
front-to-back as a Lean list), the two cursors, the length, and the
optional maximum length. -/
structure Deque (α : Type) where
  maxLen : Int
  blocks : List (Block α)
  frontIdx : Int
  backIdx : Int
  len : Nat
deriving DecidableEq

/-- newBlock from the source: `make(blockT, blockLen)` is all-nil. -/
def newBlock (α : Type) : Block α := List.replicate blockLen none

/-- Reading `block[i]` for a Go int index. In every reachable state the
code only reads in-bounds indexes (proved below); out of bounds we return
`none` (Go would panic). -/
def blockGet {α : Type} (b : Block α) (i : Int) : Option α :=
  if 0 ≤ i then List.getD b i.toNat none else none

/-- Writing `block[i] = v` for a Go int index; out of bounds is a no-op
(Go would panic; the code never writes out of bounds, proved below). -/
def blockSet {α : Type} (b : Block α) (i : Int) (v : Option α) : Block α :=
  if 0 ≤ i then List.set b i.toNat v else b

/-- Mutation of the block at `d.blocks.Back()` (the Go block slices are
aliased into the linked list, so writing through `block` updates the list). -/
def setLastBlock {α : Type} (bs : List (Block α)) (f : Block α → Block α) :
    List (Block α) :=
  bs.dropLast ++ [f (bs.getLastD (newBlock α))]

/-- Mutation of the block at `d.blocks.Front()`. -/
def setHeadBlock {α : Type} (bs : List (Block α)) (f : Block α → Block α) :
    List (Block α) :=
  f (bs.headD (newBlock α)) :: bs.tail

/-- recenter from the source: both cursors crossed at the middle of the block. -/
def Deque.recenter {α : Type} (d : Deque α) : Deque α :=
  { d with frontIdx := (blockCenter : Int) + 1, backIdx := (blockCenter : Int) }

/-- NewDequeWithMaxLen from the source: one fresh block, recentred cursors. -/
def NewDequeWithMaxLen (α : Type) (maxLen : Int) : Deque α :=
  Deque.recenter { maxLen := maxLen, blocks := [newBlock α],
                   frontIdx := 0, backIdx := 0, len := 0 }

/-- NewDeque from the source: `NewDequeWithMaxLen(0)`. -/
def NewDeque (α : Type) : Deque α := NewDequeWithMaxLen α 0

/-- Len from the source. -/
def Deque.Len {α : Type} (d : Deque α) : Nat := d.len

/-- PopFront from the source: returns the pair Go returns (the read slot
value and the presence flag) together with the post-state. -/
def Deque.popFront {α : Type} (d : Deque α) : (Option α × Bool) × Deque α :=
  if d.len < 1 then ((none, false), d)
  else
    let block := d.blocks.headD (newBlock α)
    let item := blockGet block d.frontIdx
    let blocks := setHeadBlock d.blocks (fun b => blockSet b d.frontIdx none)
    let frontIdx := d.frontIdx + 1
    let len := d.len - 1
    if frontIdx = (blockLen : Int) then
      if len = 0 then
        ((item, true),
         Deque.recenter { d with blocks := blocks, frontIdx := frontIdx, len := len })
      else
        ((item, true), { d with blocks := blocks.tail, frontIdx := 0, len := len })
    else
      ((item, true), { d with blocks := blocks, frontIdx := frontIdx, len := len })

/-- PopBack from the source. -/
def Deque.popBack {α : Type} (d : Deque α) : (Option α × Bool) × Deque α :=
  if d.len < 1 then ((none, false), d)
  else
    let block := d.blocks.getLastD (newBlock α)
    let item := blockGet block d.backIdx
    let blocks := setLastBlock d.blocks (fun b => blockSet b d.backIdx none)
    let backIdx := d.backIdx - 1
    let len := d.len - 1
    if backIdx = (-1 : Int) then
      if len = 0 then
        ((item, true),
         Deque.recenter { d with blocks := blocks, backIdx := backIdx, len := len })
      else
        ((item, true),
         { d with blocks := blocks.dropLast, backIdx := (blockLen : Int) - 1, len := len })
    else
      ((item, true), { d with blocks := blocks, backIdx := backIdx, len := len })

/-- PushBack from the source: grow a block at the back when the back block
is full, write the item, then evict through `PopFront` when bounded and
over the limit. -/
def Deque.pushBack {α : Type} (d : Deque α) (item : α) : Deque α :=
  let s :=
    if d.backIdx = (blockLen : Int) - 1 then
      (d.blocks ++ [newBlock α], (-1 : Int))
    else
      (d.blocks, d.backIdx)
  let backIdx := s.2 + 1
  let blocks := setLastBlock s.1 (fun b => blockSet b backIdx (some item))
  let d1 : Deque α := { d with blocks := blocks, backIdx := backIdx, len := d.len + 1 }
  if 0 < d1.maxLen ∧ d1.maxLen < (d1.len : Int) then (d1.popFront).2 else d1

/-- PushFront from the source: grow a block at the front when the front
block is full, write the item, then evict through `PopBack` when bounded
and over the limit. -/
def Deque.pushFront {α : Type} (d : Deque α) (item : α) : Deque α :=
  let s :=
    if d.frontIdx = 0 then
      (newBlock α :: d.blocks, (blockLen : Int))
    else
      (d.blocks, d.frontIdx)
  let frontIdx := s.2 - 1
  let blocks := setHeadBlock s.1 (fun b => blockSet b frontIdx (some item))
  let d1 : Deque α := { d with blocks := blocks, frontIdx := frontIdx, len := d.len + 1 }
  if 0 < d1.maxLen ∧ d1.maxLen < (d1.len : Int) then (d1.popBack).2 else d1

/-- Loop body of Each from the source, with the loop counter `d.len - index`
as fuel: advance `pos`, hop to the next block node on wrap, visit the slot.
The returned list is the sequence of values passed to the callback, in
visit order. -/
def eachList {α : Type} : List (Block α) → Int → Nat → List (Option α)
  | _, _, 0 => []
  | bs, pos, Nat.succ fuel =>
    if pos + 1 = (blockLen : Int) then
      blockGet (bs.tail.headD (newBlock α)) 0 :: eachList bs.tail 0 fuel
    else
      blockGet (bs.headD (newBlock α)) (pos + 1) :: eachList bs (pos + 1) fuel

/-- Each from the source: visit `d.len` slots starting at `frontIdx - 1 + 1`. -/
def Deque.each {α : Type} (d : Deque α) : List (Option α) :=
  eachList d.blocks (d.frontIdx - 1) d.len

/-- Abstraction: the sequence of occupied slots, front to back. The occupied
region of the flattened block list starts at `frontIdx` and has `len` slots. -/
def Deque.toList {α : Type} (d : Deque α) : List (Option α) :=
  (d.blocks.flatten.drop d.frontIdx.toNat).take d.len

/-- Shape invariant of a reachable deque: at least one block, all blocks of
length `blockLen`, both cursors in `[0, blockLen)`, and the counting equation
tying the cursors, the block count and the length together. -/
def repOk {α : Type} (d : Deque α) : Prop :=
  d.blocks ≠ [] ∧
  (∀ blk ∈ d.blocks, blk.length = blockLen) ∧
  0 ≤ d.frontIdx ∧ d.frontIdx < (blockLen : Int) ∧
  0 ≤ d.backIdx ∧ d.backIdx < (blockLen : Int) ∧
  d.frontIdx + (d.len : Int) =
    (blockLen : Int) * ((d.blocks.length : Int) - 1) + d.backIdx + 1

theorem flatten_len {α : Type} (bs : List (Block α))
    (h : ∀ blk ∈ bs, blk.length = blockLen) :
    bs.flatten.length = blockLen * bs.length := by
  induction bs with
  | nil => simp
  | cons b t ih =>
    simp only [List.flatten_cons, List.length_append, List.length_cons]
    rw [h b (List.mem_cons_self b t), ih (fun blk hb => h blk (List.mem_cons_of_mem _ hb))]
    ring

theorem repOk_new {α : Type} (m : Int) : repOk (NewDequeWithMaxLen α m) := by
  refine ⟨?_, ?_, ?_, ?_, ?_, ?_, ?_⟩ <;>
    simp [NewDequeWithMaxLen, Deque.recenter, newBlock, blockLen, blockCenter]

theorem toList_new {α : Type} (m : Int) : (NewDequeWithMaxLen α m).toList = [] := by
  simp [Deque.toList, NewDequeWithMaxLen, Deque.recenter]

theorem blockSet_length {α : Type} (bb : Block α) (i : Int) (v : Option α) :
    (blockSet bb i v).length = bb.length := by
  unfold blockSet; split <;> simp

theorem blockSet_eq {α : Type} (bb : Block α) (i : Int) (v : Option α) (h : 0 ≤ i) :
    blockSet bb i v = bb.set i.toNat v := by
  unfold blockSet; rw [if_pos h]

theorem blockGet_eq {α : Type} (bb : Block α) (i : Int) (h : 0 ≤ i) :
    blockGet bb i = bb.getD i.toNat none := by
  unfold blockGet; rw [if_pos h]

theorem tail_take_drop {β : Type} (l : List β) (i n : Nat) :
    ((l.drop i).take n).tail = (l.drop (i+1)).take (n-1) := by
  cases n with
  | zero => simp
  | succ m =>
    rw [← List.tail_drop]
    cases hld : l.drop i with
    | nil => simp
    | cons x xs => simp [List.take_succ_cons]

theorem headD_take_drop {β : Type} (l : List β) (dflt : β) (i n : Nat) (hn : 0 < n) :
    ((l.drop i).take n).headD dflt = (l[i]?).getD dflt := by
  rw [List.headD_eq_head?_getD, List.head?_take, if_neg (by omega), List.head?_drop]

theorem getLastD_take_drop {β : Type} (l : List β) (dflt : β) (i n : Nat) (hn : 0 < n)
    (hle : i + n ≤ l.length) :
    ((l.drop i).take n).getLastD dflt = (l[i + n - 1]?).getD dflt := by
  rw [List.getLastD_eq_getLast?, List.getLast?_eq_getElem?]
  have hlen : ((l.drop i).take n).length = n := by
    simp only [List.length_take, List.length_drop]; omega
  rw [hlen, List.getElem?_take_of_lt (by omega), List.getElem?_drop]
  congr 2
  omega

theorem dropLast_take_drop {β : Type} (l : List β) (i n : Nat) (hle : i + n ≤ l.length) :
    ((l.drop i).take n).dropLast = (l.drop i).take (n-1) := by
  have hx : (l.drop i).length = l.length - i := List.length_drop i l
  rw [List.dropLast_eq_take, List.length_take, List.take_take, hx]
  congr 1
  omega

theorem repOk_mk {α : Type} (mx : Int) (bs : List (Block α)) (f b : Int) (n : Nat)
    (h1 : bs ≠ []) (h2 : ∀ blk ∈ bs, blk.length = blockLen)
    (h3 : 0 ≤ f) (h4 : f < (blockLen : Int)) (h5 : 0 ≤ b) (h6 : b < (blockLen : Int))
    (h7 : f + (n : Int) = (blockLen : Int) * ((bs.length : Int) - 1) + b + 1) :
    repOk ⟨mx, bs, f, b, n⟩ :=
  ⟨h1, h2, h3, h4, h5, h6, h7⟩

theorem toList_mk {α : Type} (mx : Int) (bs : List (Block α)) (f b : Int) (n : Nat) :
    Deque.toList ⟨mx, bs, f, b, n⟩ = (bs.flatten.drop f.toNat).take n := rfl

theorem popFront_spec {α : Type} (d : Deque α) (h : repOk d) (hn : 0 < d.len) :
    (d.popFront).1 = (d.toList.headD none, true) ∧
    repOk (d.popFront).2 ∧
    (d.popFront).2.toList = d.toList.tail ∧
    (d.popFront).2.len = d.len - 1 ∧
    (d.popFront).2.maxLen = d.maxLen := by
  obtain ⟨mx, bs, f, b, n⟩ := d
  obtain ⟨hne, hblk, hf0, hf64, hb0, hb64, hcnt⟩ := h
  simp only at hne hblk hf0 hf64 hb0 hb64 hcnt hn ⊢
  cases bs with
  | nil => exact absurd rfl hne
  | cons hd tl =>
    have hhd : hd.length = 64 := hblk hd (List.mem_cons_self hd tl)
    have htlen : tl.flatten.length = 64 * tl.length := by
      have := flatten_len tl (fun blk hb => hblk blk (List.mem_cons_of_mem _ hb))
      simpa [blockLen] using this
    simp only [blockLen, List.length_cons] at hf64 hb64 hcnt
    push_cast at hcnt
    have hitem : blockGet hd f =
        (((hd ++ tl.flatten).drop f.toNat).take n).headD none := by
      rw [blockGet_eq hd f hf0, headD_take_drop _ _ _ _ hn,
        List.getElem?_append_left (by omega), List.getD_eq_getElem?_getD]
    have hblkset : ∀ blk ∈ blockSet hd f none :: tl, blk.length = blockLen := by
      intro blk hbm
      rcases List.mem_cons.mp hbm with hbm | hbm
      · subst hbm; rw [blockSet_length]; exact hblk hd (List.mem_cons_self hd tl)
      · exact hblk blk (List.mem_cons_of_mem _ hbm)
    simp only [Deque.popFront, Deque.recenter, List.headD_cons,
      setHeadBlock, List.tail_cons, List.flatten_cons, blockLen, blockCenter,
      Deque.toList, toList_mk]
    rw [if_neg (by omega)]
    push_cast
    by_cases hfw : f + 1 = (64 : Int)
    · rw [if_pos hfw]
      by_cases hn1 : n - 1 = 0
      · rw [if_pos hn1]
        have hn1' : n = 1 := by omega
        have htl0 : tl.length = 0 := by omega
        have htl : tl = [] := List.eq_nil_of_length_eq_zero htl0
        subst htl
        subst hn1'
        dsimp only
        refine ⟨by rw [hitem], ?_, ?_, by simp, by simp⟩
        · exact repOk_mk _ _ _ _ _ (by simp) hblkset
            (by norm_num [blockCenter]) (by norm_num [blockCenter, blockLen])
            (by norm_num [blockCenter]) (by norm_num [blockCenter, blockLen])
            (by norm_num [blockCenter, blockLen])
        · rw [tail_take_drop]
          simp
      · rw [if_neg hn1]
        have htl : 1 ≤ tl.length := by omega
        dsimp only
        refine ⟨by rw [hitem], ?_, ?_, by simp, by simp⟩
        · refine repOk_mk _ _ _ _ _ (by intro hc; rw [hc] at htl; simp at htl)
            (fun blk hb => hblk blk (List.mem_cons_of_mem _ hb))
            (by norm_num) (by norm_num [blockLen]) hb0 (by simp [blockLen]; omega) ?_
          simp only [blockLen]
          push_cast
          omega
        · rw [tail_take_drop]
          have hf63 : f.toNat + 1 = 64 := by omega
          rw [hf63]
          have h64 : (64 : Nat) = hd.length + 0 := by omega
          rw [h64, List.drop_append]
          simp
    · rw [if_neg hfw]
      dsimp only
      refine ⟨by rw [hitem], ?_, ?_, by simp, by simp⟩
      · refine repOk_mk _ _ _ _ _ (by simp) hblkset
          (by omega) (by simp [blockLen]; omega) hb0 (by simp [blockLen]; omega) ?_
        simp only [List.length_cons, blockLen]
        push_cast
        omega
      · rw [blockSet_eq _ _ _ hf0, List.flatten_cons]
        have hset : List.set hd f.toNat none ++ tl.flatten =
            (hd ++ tl.flatten).set f.toNat none :=
          (List.set_append_left _ _ (by omega)).symm
        rw [hset]
        have hfT : (f + 1).toNat = f.toNat + 1 := by omega
        rw [hfT, List.drop_set_of_lt _ _ (by omega), tail_take_drop]
theorem take_set_of_le {β : Type} (a : β) (i m : Nat) (l : List β) (h : m ≤ i) :
    (l.set i a).take m = l.take m :=
  List.ext_getElem? fun k => by
    rw [List.getElem?_take, List.getElem?_take]
    split
    · next hk => exact List.getElem?_set_ne (by omega)
    · rfl

theorem take_succ_set {β : Type} (l : List β) (i : Nat) (x : β) (h : i < l.length) :
    (l.set i x).take (i+1) = l.take i ++ [x] := by
  rw [List.take_succ, take_set_of_le x i i l (Nat.le_refl i),
    List.getElem?_set_self (by simpa using h)]
  rfl

theorem setLastBlock_concat {α : Type} (bs : List (Block α)) (lb : Block α)
    (g : Block α → Block α) :
    setLastBlock (bs ++ [lb]) g = bs ++ [g lb] := by
  unfold setLastBlock
  rw [List.dropLast_concat, List.getLastD_concat]

theorem popBack_spec {α : Type} (d : Deque α) (h : repOk d) (hn : 0 < d.len) :
    (d.popBack).1 = (d.toList.getLastD none, true) ∧
    repOk (d.popBack).2 ∧
    (d.popBack).2.toList = d.toList.dropLast ∧
    (d.popBack).2.len = d.len - 1 ∧
    (d.popBack).2.maxLen = d.maxLen := by
  obtain ⟨mx, bs, f, b, n⟩ := d
  obtain ⟨hne, hblk, hf0, hf64, hb0, hb64, hcnt⟩ := h
  simp only at hne hblk hf0 hf64 hb0 hb64 hcnt hn ⊢
  rcases List.eq_nil_or_concat bs with rfl | ⟨init, lb, rfl⟩
  · exact absurd rfl hne
  · simp only [List.concat_eq_append] at hne hblk hcnt ⊢
    have hlb : lb.length = 64 := hblk lb (by simp)
    have hinit : init.flatten.length = 64 * init.length := by
      have := flatten_len init (fun blk hb => hblk blk (by simp [hb]))
      simpa [blockLen] using this
    simp only [blockLen, List.length_append, List.length_cons, List.length_nil] at hf64 hb64 hcnt
    push_cast at hcnt
    have hitem : blockGet lb b =
        ((((init.flatten ++ lb).drop f.toNat).take n).getLastD none) := by
      rw [blockGet_eq lb b hb0,
        getLastD_take_drop _ _ _ _ hn (by simp [hinit, hlb]; omega),
        List.getElem?_append_right (by omega), List.getD_eq_getElem?_getD]
      congr 2
      omega
    have hblkset : ∀ blk ∈ init ++ [lb.set b.toNat none], blk.length = blockLen := by
      intro blk hbm
      rcases List.mem_append.mp hbm with hbm | hbm
      · exact hblk blk (by simp [hbm])
      · simp only [List.mem_singleton] at hbm
        subst hbm
        simp [hlb, blockLen]
    simp only [Deque.popBack, Deque.recenter, List.getLastD_concat,
      setLastBlock_concat, List.flatten_concat, blockLen, blockCenter,
      Deque.toList, toList_mk]
    rw [if_neg (by omega)]
    rw [blockSet_eq _ _ _ hb0]
    push_cast
    by_cases hbw : b - 1 = (-1 : Int)
    · rw [if_pos hbw]
      have hb00 : b = 0 := by omega
      by_cases hn1 : n - 1 = 0
      · rw [if_pos hn1]
        have hn1' : n = 1 := by omega
        have hil : init.length = 0 := by omega
        have hinil : init = [] := List.eq_nil_of_length_eq_zero hil
        subst hinil
        subst hn1'
        dsimp only
        refine ⟨by rw [hitem], ?_, ?_, by simp, by simp⟩
        · exact repOk_mk _ _ _ _ _ (by simp) hblkset
            (by norm_num [blockCenter]) (by norm_num [blockCenter, blockLen])
            (by norm_num [blockCenter]) (by norm_num [blockCenter, blockLen])
            (by norm_num [blockCenter, blockLen])
        · rw [dropLast_take_drop _ _ _ (by simp [hinit, hlb]; omega)]
          simp
      · rw [if_neg hn1]
        have hil : 1 ≤ init.length := by omega
        dsimp only
        rw [List.dropLast_concat]
        refine ⟨by rw [hitem], ?_, ?_, by simp, by simp⟩
        · refine repOk_mk _ _ _ _ _ (by intro hc; rw [hc] at hil; simp at hil)
            (fun blk hb => hblk blk (by simp [hb]))
            hf0 (by simp [blockLen]; omega) (by norm_num) (by norm_num [blockLen]) ?_
          simp only [blockLen]
          push_cast
          omega
        · rw [dropLast_take_drop _ _ _ (by simp [hinit, hlb]; omega),
            List.drop_append_of_le_length (by omega),
            List.take_append_of_le_length (by simp [hinit]; omega)]
    · rw [if_neg hbw]
      dsimp only
      refine ⟨by rw [hitem], ?_, ?_, by simp, by simp⟩
      · refine repOk_mk _ _ _ _ _ (by simp) hblkset
          hf0 (by simp [blockLen]; omega) (by omega) (by simp [blockLen]; omega) ?_
        simp only [List.length_append, List.length_cons, List.length_nil, blockLen]
        push_cast
        omega
      · have hset : init.flatten ++ lb.set b.toNat none =
            (init.flatten ++ lb).set (init.flatten.length + b.toNat) none := by
          rw [List.set_append_right _ _ (by omega)]
          congr 2
          omega
        rw [List.flatten_concat, hset,
          dropLast_take_drop _ _ _ (by simp [hinit, hlb]; omega)]
        have hP : init.flatten.length + b.toNat = f.toNat + (n - 1) := by omega
        rw [hP, List.drop_set, if_neg (by omega)]
        rw [take_set_of_le _ _ _ _ (by omega)]

theorem newBlock_set_zero_take {α : Type} (v : α) :
    (blockSet (newBlock α) 0 (some v)).take 1 = [some v] := by
  rw [blockSet_eq _ _ _ (by norm_num)]
  have := take_succ_set (newBlock α) 0 (some v) (by simp [newBlock, blockLen])
  simpa using this

theorem newBlock_set_last_drop {α : Type} (v : α) :
    (blockSet (newBlock α) (63 : Int) (some v)).drop 63 = [some v] := by
  rw [blockSet_eq _ _ _ (by norm_num)]
  have h1 : ((63 : Int)).toNat = 63 := by decide
  rw [h1, List.drop_set, if_neg (by omega)]
  simp [newBlock, blockLen]

theorem setHeadBlock_cons {α : Type} (hd : Block α) (tl : List (Block α))
    (g : Block α → Block α) :
    setHeadBlock (hd :: tl) g = g hd :: tl := rfl

theorem set_zero_take_succ {β : Type} (l : List β) (x : β) (n : Nat) (h : l ≠ []) :
    (l.set 0 x).take (n+1) = x :: l.tail.take n := by
  cases l with
  | nil => exact absurd rfl h
  | cons a t => simp

theorem pushBack_spec {α : Type} (d : Deque α) (v : α) (h : repOk d) :
    repOk (d.pushBack v) ∧
    (d.pushBack v).toList = (if 0 < d.maxLen ∧ d.maxLen < (d.len : Int) + 1
        then (d.toList ++ [some v]).tail else d.toList ++ [some v]) ∧
    (d.pushBack v).len = (if 0 < d.maxLen ∧ d.maxLen < (d.len : Int) + 1
        then d.len else d.len + 1) ∧
    (d.pushBack v).maxLen = d.maxLen := by
  obtain ⟨d1, hpb, h1, h2, h3, h4⟩ :
      ∃ d1 : Deque α, d.pushBack v =
          (if 0 < d.maxLen ∧ d.maxLen < (d.len : Int) + 1 then (d1.popFront).2 else d1) ∧
        repOk d1 ∧ d1.toList = d.toList ++ [some v] ∧ d1.len = d.len + 1 ∧
        d1.maxLen = d.maxLen := by
    obtain ⟨mx, bs, f, b, n⟩ := d
    obtain ⟨hne, hblk, hf0, hf64, hb0, hb64, hcnt⟩ := h
    simp only at hne hblk hf0 hf64 hb0 hb64 hcnt ⊢
    simp only [blockLen] at hf64 hb64 hcnt
    push_cast at hcnt
    have hk1 : 1 ≤ bs.length := List.length_pos.mpr hne
    have hJlen : bs.flatten.length = 64 * bs.length := by
      have := flatten_len bs hblk
      simpa [blockLen] using this
    by_cases hb : b = (63 : Int)
    · refine ⟨⟨mx, bs ++ [blockSet (newBlock α) 0 (some v)], f, 0, n + 1⟩,
        ?_, ?_, ?_, rfl, rfl⟩
      · simp only [Deque.pushBack, blockLen]
        push_cast
        rw [if_pos hb]
        dsimp only
        rw [setLastBlock_concat]
        simp only [neg_add_cancel]
      · refine repOk_mk _ _ _ _ _ (by simp) ?_ hf0
          (by simpa [blockLen] using hf64) (by norm_num) (by norm_num [blockLen]) ?_
        · intro blk hbm
          rcases List.mem_append.mp hbm with hbm | hbm
          · exact hblk blk hbm
          · simp only [List.mem_singleton] at hbm
            subst hbm
            rw [blockSet_length]
            simp [newBlock]
        · simp only [blockLen, List.length_append, List.length_cons, List.length_nil]
          push_cast
          omega
      · have hJd : (bs.flatten.drop f.toNat).length = n := by
          rw [List.length_drop, hJlen]
          omega
        rw [toList_mk, toList_mk, List.flatten_concat,
          List.drop_append_of_le_length (by omega),
          show n + 1 = (bs.flatten.drop f.toNat).length + 1 by rw [hJd],
          List.take_append, List.take_of_length_le (le_of_eq hJd),
          newBlock_set_zero_take]
    · obtain ⟨init, lb, rfl⟩ : ∃ init lb, bs = init ++ [lb] := by
        rcases List.eq_nil_or_concat bs with rfl | ⟨init, lb, hbs⟩
        · exact absurd rfl hne
        · exact ⟨init, lb, by simpa [List.concat_eq_append] using hbs⟩
      have hlb : lb.length = 64 := by simpa [blockLen] using hblk lb (by simp)
      have hinit : init.flatten.length = 64 * init.length := by
        have := flatten_len init (fun blk hbm => hblk blk (by simp [hbm]))
        simpa [blockLen] using this
      simp only [List.length_append, List.length_cons, List.length_nil] at hcnt
      push_cast at hcnt
      refine ⟨⟨mx, init ++ [blockSet lb (b + 1) (some v)], f, b + 1, n + 1⟩,
        ?_, ?_, ?_, rfl, rfl⟩
      · simp only [Deque.pushBack, blockLen]
        push_cast
        rw [if_neg hb]
        dsimp only
        rw [setLastBlock_concat]
      · refine repOk_mk _ _ _ _ _ (by simp) ?_ hf0
          (by simpa [blockLen] using hf64) (by omega) (by simp [blockLen]; omega) ?_
        · intro blk hbm
          rcases List.mem_append.mp hbm with hbm | hbm
          · exact hblk blk (by simp [hbm])
          · simp only [List.mem_singleton] at hbm
            subst hbm
            rw [blockSet_length]
            exact hblk lb (by simp)
        · simp only [blockLen, List.length_append, List.length_cons, List.length_nil]
          push_cast
          omega
      · rw [toList_mk, toList_mk, List.flatten_concat, List.flatten_concat,
          blockSet_eq _ _ _ (by omega)]
        have hP : init.flatten ++ lb.set (b + 1).toNat (some v) =
            (init.flatten ++ lb).set (f.toNat + n) (some v) := by
          rw [List.set_append_right _ _ (by omega)]
          congr 2
          omega
        rw [hP]
        have hd1 : ((init.flatten ++ lb).set (f.toNat + n) (some v)).drop f.toNat =
            ((init.flatten ++ lb).drop f.toNat).set n (some v) := by
          rw [List.drop_set, if_neg (by omega)]
          congr 2
          omega
        rw [hd1, take_succ_set _ _ _
          (by simp only [List.length_drop, List.length_append, hinit, hlb]; omega)]
  rw [hpb]
  by_cases hev : 0 < d.maxLen ∧ d.maxLen < (d.len : Int) + 1
  · simp only [if_pos hev]
    obtain ⟨p1, p2, p3, p4, p5⟩ := popFront_spec d1 h1 (by omega)
    refine ⟨p2, ?_, ?_, by rw [p5, h4]⟩
    · rw [p3, h2]
    · rw [p4, h3]
      simp
  · simp only [if_neg hev]
    exact ⟨h1, h2, h3, h4⟩

theorem pushFront_spec {α : Type} (d : Deque α) (v : α) (h : repOk d) :
    repOk (d.pushFront v) ∧
    (d.pushFront v).toList = (if 0 < d.maxLen ∧ d.maxLen < (d.len : Int) + 1
        then (some v :: d.toList).dropLast else some v :: d.toList) ∧
    (d.pushFront v).len = (if 0 < d.maxLen ∧ d.maxLen < (d.len : Int) + 1
        then d.len else d.len + 1) ∧
    (d.pushFront v).maxLen = d.maxLen := by
  obtain ⟨d1, hpf, h1, h2, h3, h4⟩ :
      ∃ d1 : Deque α, d.pushFront v =
          (if 0 < d.maxLen ∧ d.maxLen < (d.len : Int) + 1 then (d1.popBack).2 else d1) ∧
        repOk d1 ∧ d1.toList = some v :: d.toList ∧ d1.len = d.len + 1 ∧
        d1.maxLen = d.maxLen := by
    obtain ⟨mx, bs, f, b, n⟩ := d
    obtain ⟨hne, hblk, hf0, hf64, hb0, hb64, hcnt⟩ := h
    simp only at hne hblk hf0 hf64 hb0 hb64 hcnt ⊢
    simp only [blockLen] at hf64 hb64 hcnt
    push_cast at hcnt
    have hk1 : 1 ≤ bs.length := List.length_pos.mpr hne
    have hJlen : bs.flatten.length = 64 * bs.length := by
      have := flatten_len bs hblk
      simpa [blockLen] using this
    by_cases hf : f = (0 : Int)
    · refine ⟨⟨mx, blockSet (newBlock α) (63 : Int) (some v) :: bs,
        (63 : Int), b, n + 1⟩, ?_, ?_, ?_, rfl, rfl⟩
      · simp only [Deque.pushFront, blockLen]
        norm_num
        rw [if_pos hf]
        dsimp only
        rw [setHeadBlock_cons]
        norm_num
      · refine repOk_mk _ _ _ _ _ (by simp) ?_ (by norm_num) (by norm_num [blockLen])
          hb0 (by simpa [blockLen] using hb64) ?_
        · intro blk hbm
          rcases List.mem_cons.mp hbm with hbm | hbm
          · subst hbm
            rw [blockSet_length]
            simp [newBlock]
          · exact hblk blk hbm
        · simp only [blockLen, List.length_cons]
          push_cast
          omega
      · rw [toList_mk, toList_mk, List.flatten_cons, hf]
        have h63 : ((63 : Int)).toNat = 63 := by decide
        have hlen' : (blockSet (newBlock α) (63 : Int) (some v)).length = 64 := by
          rw [blockSet_length]
          simp [newBlock, blockLen]
        rw [h63, List.drop_append_of_le_length (by rw [hlen']; norm_num),
          newBlock_set_last_drop]
        simp
    · cases bs with
      | nil => exact absurd rfl hne
      | cons hd tl =>
        have hhd : hd.length = 64 := by simpa [blockLen] using hblk hd (by simp)
        have htlen : tl.flatten.length = 64 * tl.length := by
          have := flatten_len tl (fun blk hbm => hblk blk (by simp [hbm]))
          simpa [blockLen] using this
        simp only [List.length_cons] at hcnt
        push_cast at hcnt
        refine ⟨⟨mx, blockSet hd (f - 1) (some v) :: tl, f - 1, b, n + 1⟩,
          ?_, ?_, ?_, rfl, rfl⟩
        · simp only [Deque.pushFront, blockLen]
          push_cast
          rw [if_neg hf]
          dsimp only
          rw [setHeadBlock_cons]
        · refine repOk_mk _ _ _ _ _ (by simp) ?_ (by omega) (by simp [blockLen]; omega)
            hb0 (by simpa [blockLen] using hb64) ?_
          · intro blk hbm
            rcases List.mem_cons.mp hbm with hbm | hbm
            · subst hbm
              rw [blockSet_length]
              exact hblk hd (by simp)
            · exact hblk blk (by simp [hbm])
          · simp only [blockLen, List.length_cons]
            push_cast
            omega
        · rw [toList_mk, toList_mk, List.flatten_cons, blockSet_eq _ _ _ (by omega)]
          have hP : hd.set (f - 1).toNat (some v) ++ tl.flatten =
              (hd ++ tl.flatten).set (f - 1).toNat (some v) := by
            rw [List.set_append_left _ _ (by omega)]
          rw [hP, List.drop_set, if_neg (by omega), Nat.sub_self]
          have hnn : (hd ++ tl.flatten).drop (f - 1).toNat ≠ [] := by
            apply List.length_pos.mp
            simp only [List.length_drop, List.length_append, hhd, htlen]
            omega
          rw [set_zero_take_succ _ _ _ hnn, List.tail_drop]
          have hft : (f - 1).toNat + 1 = f.toNat := by omega
          rw [hft, List.flatten_cons]
  rw [hpf]
  by_cases hev : 0 < d.maxLen ∧ d.maxLen < (d.len : Int) + 1
  · simp only [if_pos hev]
    obtain ⟨p1, p2, p3, p4, p5⟩ := popBack_spec d1 h1 (by omega)
    refine ⟨p2, ?_, ?_, by rw [p5, h4]⟩
    · rw [p3, h2]
    · rw [p4, h3]
      simp
  · simp only [if_neg hev]
    exact ⟨h1, h2, h3, h4⟩

theorem toList_length {α : Type} (d : Deque α) (h : repOk d) :
    d.toList.length = d.len := by
  obtain ⟨mx, bs, f, b, n⟩ := d
  obtain ⟨hne, hblk, hf0, hf64, hb0, hb64, hcnt⟩ := h
  simp only at hne hblk hf0 hf64 hb0 hb64 hcnt ⊢
  have hJ : bs.flatten.length = 64 * bs.length := by
    have := flatten_len bs hblk
    simpa [blockLen] using this
  have hk1 : 1 ≤ bs.length := List.length_pos.mpr hne
  simp only [blockLen] at hf64 hb64 hcnt
  push_cast at hcnt
  rw [toList_mk]
  simp only [List.length_take, List.length_drop, hJ]
  omega

theorem take_drop_succ {β : Type} (l : List β) (i m : Nat) (h : i < l.length) (dflt : β) :
    (l.drop i).take (m+1) = (l[i]?.getD dflt) :: (l.drop (i+1)).take m := by
  rw [List.drop_eq_getElem_cons h, List.take_succ_cons]
  congr 1
  simp [List.getElem?_eq_getElem h]

theorem eachList_spec {α : Type} (fuel : Nat) :
    ∀ (bs : List (Block α)) (pos : Int),
      (∀ blk ∈ bs, blk.length = blockLen) →
      -1 ≤ pos → pos < (blockLen : Int) →
      (pos + 1).toNat + fuel ≤ bs.flatten.length →
      eachList bs pos fuel = (bs.flatten.drop (pos + 1).toNat).take fuel := by
  have hbli : ((blockLen : Nat) : Int) = 64 := by norm_num [blockLen]
  induction fuel with
  | zero =>
    intro bs pos _ _ _ _
    simp [eachList]
  | succ m ih =>
    intro bs pos hblk hpos1 hpos2 hle
    rw [hbli] at hpos2
    cases bs with
    | nil =>
      simp only [List.flatten_nil, List.length_nil] at hle
      omega
    | cons hd tl =>
      have hhd : hd.length = 64 := by simpa [blockLen] using hblk hd (by simp)
      have htlen : tl.flatten.length = 64 * tl.length := by
        have := flatten_len tl (fun blk hbm => hblk blk (by simp [hbm]))
        simpa [blockLen] using this
      simp only [List.flatten_cons, List.length_append, hhd] at hle
      by_cases hw : pos + 1 = ((blockLen : Nat) : Int)
      · have hw' : pos + 1 = (64 : Int) := by rw [hbli] at hw; exact hw
        have hp64 : (pos + 1).toNat = 64 := by omega
        rw [hp64] at hle ⊢
        simp only [eachList, if_pos hw, List.tail_cons, List.headD_cons]
        have htl1 : 1 ≤ tl.length := by omega
        obtain ⟨t0, ts, rfl⟩ : ∃ t0 ts, tl = t0 :: ts := by
          cases tl with
          | nil => simp at htl1
          | cons t0 ts => exact ⟨t0, ts, rfl⟩
        have ht0 : t0.length = 64 := by simpa [blockLen] using hblk t0 (by simp)
        rw [List.flatten_cons, List.flatten_cons,
          take_drop_succ (hd ++ (t0 ++ ts.flatten)) 64 m
          (by simp only [List.length_append, hhd, ht0]; omega) none]
        have hhead : blockGet t0 0 = ((hd ++ (t0 ++ ts.flatten))[64]?).getD none := by
          rw [blockGet_eq _ _ (by norm_num),
            List.getElem?_append_right (by omega),
            List.getElem?_append_left (by omega)]
          simp [hhd]
        have htail : eachList (t0 :: ts) 0 m =
            ((hd ++ (t0 ++ ts.flatten)).drop (64 + 1)).take m := by
          rw [ih (t0 :: ts) 0 (fun blk hbm => hblk blk (by simp [hbm]))
            (by norm_num) (by rw [hbli]; norm_num)
            (by simp only [List.flatten_cons, List.length_append, ht0] at hle ⊢
                omega)]
          have h65 : (64 : Nat) + 1 = hd.length + 1 := by omega
          rw [h65, List.drop_append]
          norm_num
        rw [List.headD_cons, hhead, htail]
      · have hw' : ¬pos + 1 = (64 : Int) := by rw [hbli] at hw; exact hw
        have hpn : (pos + 1).toNat < 64 := by omega
        simp only [eachList, if_neg hw, List.headD_cons]
        rw [List.flatten_cons,
          take_drop_succ (hd ++ tl.flatten) (pos + 1).toNat m (by simp [hhd]; omega) none]
        have hhead : blockGet hd (pos + 1) = ((hd ++ tl.flatten)[(pos + 1).toNat]?).getD none := by
          rw [blockGet_eq _ _ (by omega), List.getElem?_append_left (by omega)]
          simp
        have htail : eachList (hd :: tl) (pos + 1) m =
            ((hd ++ tl.flatten).drop ((pos + 1).toNat + 1)).take m := by
          rw [ih (hd :: tl) (pos + 1) hblk (by omega) (by rw [hbli]; omega)
            (by simp only [List.flatten_cons, List.length_append, hhd]; omega)]
          have hpp : (pos + 1 + 1).toNat = (pos + 1).toNat + 1 := by omega
          rw [List.flatten_cons, hpp]
        rw [hhead, htail]

theorem each_eq_toList {α : Type} (d : Deque α) (h : repOk d) :
    d.each = d.toList := by
  obtain ⟨hne, hblk, hf0, hf64, hb0, hb64, hcnt⟩ := h
  have hJ : d.blocks.flatten.length = 64 * d.blocks.length := by
    have := flatten_len d.blocks hblk
    simpa [blockLen] using this
  have hk1 : 1 ≤ d.blocks.length := List.length_pos.mpr hne
  simp only [blockLen] at hf64 hb64 hcnt
  push_cast at hcnt
  show eachList d.blocks (d.frontIdx - 1) d.len = d.toList
  rw [eachList_spec d.len d.blocks (d.frontIdx - 1) hblk (by omega)
    (by rw [show ((blockLen : Nat) : Int) = 64 by norm_num [blockLen]]; omega)
    (by omega)]
  have hfn : (d.frontIdx - 1 + 1).toNat = d.frontIdx.toNat := by omega
  rw [hfn]
  rfl

/-- Fold of `PushBack` over a list of values (first element pushed first). -/
def pushBackAll {α : Type} (d : Deque α) (l : List α) : Deque α :=
  l.foldl Deque.pushBack d

/-- Fold of `PushFront` over a list of values (first element pushed first). -/
def pushFrontAll {α : Type} (d : Deque α) (l : List α) : Deque α :=
  l.foldl Deque.pushFront d

/-- Call `PopFront` a given number of times, collecting the returned pairs. -/
def popFrontN {α : Type} : Deque α → Nat → List (Option α × Bool) × Deque α
  | d, 0 => ([], d)
  | d, Nat.succ m =>
    let r := d.popFront
    let rest := popFrontN r.2 m
    (r.1 :: rest.1, rest.2)

/-- Call `PopBack` a given number of times, collecting the returned pairs. -/
def popBackN {α : Type} : Deque α → Nat → List (Option α × Bool) × Deque α
  | d, 0 => ([], d)
  | d, Nat.succ m =>
    let r := d.popBack
    let rest := popBackN r.2 m
    (r.1 :: rest.1, rest.2)

theorem pushBackAll_unbounded {α : Type} (l : List α) :
    ∀ (d : Deque α), repOk d → d.maxLen ≤ 0 →
      repOk (pushBackAll d l) ∧
      (pushBackAll d l).toList = d.toList ++ l.map some ∧
      (pushBackAll d l).len = d.len + l.length ∧
      (pushBackAll d l).maxLen = d.maxLen := by
  induction l with
  | nil =>
    intro d h hm
    exact ⟨h, by simp [pushBackAll], by simp [pushBackAll], rfl⟩
  | cons x xs ih =>
    intro d h hm
    have hcond : ¬(0 < d.maxLen ∧ d.maxLen < (d.len : Int) + 1) := by omega
    obtain ⟨h1, h2, h3, h4⟩ := pushBack_spec d x h
    rw [if_neg hcond] at h2 h3
    obtain ⟨g1, g2, g3, g4⟩ := ih (d.pushBack x) h1 (by rw [h4]; exact hm)
    refine ⟨g1, ?_, ?_, ?_⟩
    · show (pushBackAll (d.pushBack x) xs).toList = _
      rw [g2, h2]
      simp
    · show (pushBackAll (d.pushBack x) xs).len = _
      rw [g3, h3]
      simp only [List.length_cons]
      omega
    · show (pushBackAll (d.pushBack x) xs).maxLen = _
      rw [g4, h4]

theorem pushFrontAll_unbounded {α : Type} (l : List α) :
    ∀ (d : Deque α), repOk d → d.maxLen ≤ 0 →
      repOk (pushFrontAll d l) ∧
      (pushFrontAll d l).toList = (l.map some).reverse ++ d.toList ∧
      (pushFrontAll d l).len = d.len + l.length ∧
      (pushFrontAll d l).maxLen = d.maxLen := by
  induction l with
  | nil =>
    intro d h hm
    exact ⟨h, by simp [pushFrontAll], by simp [pushFrontAll], rfl⟩
  | cons x xs ih =>
    intro d h hm
    have hcond : ¬(0 < d.maxLen ∧ d.maxLen < (d.len : Int) + 1) := by omega
    obtain ⟨h1, h2, h3, h4⟩ := pushFront_spec d x h
    rw [if_neg hcond] at h2 h3
    obtain ⟨g1, g2, g3, g4⟩ := ih (d.pushFront x) h1 (by rw [h4]; exact hm)
    refine ⟨g1, ?_, ?_, ?_⟩
    · show (pushFrontAll (d.pushFront x) xs).toList = _
      rw [g2, h2]
      simp
    · show (pushFrontAll (d.pushFront x) xs).len = _
      rw [g3, h3]
      simp only [List.length_cons]
      omega
    · show (pushFrontAll (d.pushFront x) xs).maxLen = _
      rw [g4, h4]

theorem popFrontN_spec {α : Type} (m : Nat) :
    ∀ (d : Deque α), repOk d → m ≤ d.len →
      (popFrontN d m).1 = (d.toList.take m).map (fun x => (x, true)) ∧
      repOk (popFrontN d m).2 ∧
      (popFrontN d m).2.toList = d.toList.drop m ∧
      (popFrontN d m).2.len = d.len - m ∧
      (popFrontN d m).2.maxLen = d.maxLen := by
  induction m with
  | zero =>
    intro d h _
    exact ⟨by simp [popFrontN], h, by simp [popFrontN], by simp [popFrontN], rfl⟩
  | succ k ih =>
    intro d h hm
    obtain ⟨p1, p2, p3, p4, p5⟩ := popFront_spec d h (by omega)
    obtain ⟨g1, g2, g3, g4, g5⟩ := ih (d.popFront).2 p2 (by omega)
    have hlen := toList_length d h
    obtain ⟨y, ys, hy⟩ : ∃ y ys, d.toList = y :: ys := by
      cases hyy : d.toList with
      | nil => rw [hyy] at hlen; simp at hlen; omega
      | cons y ys => exact ⟨y, ys, rfl⟩
    simp only [popFrontN]
    refine ⟨?_, g2, ?_, ?_, ?_⟩
    · rw [p1, g1, p3, hy]
      simp
    · rw [g3, p3, hy]
      simp
    · rw [g4, p4]
      omega
    · rw [g5, p5]

theorem popBackN_spec {α : Type} (m : Nat) :
    ∀ (d : Deque α), repOk d → m ≤ d.len →
      (popBackN d m).1 = (d.toList.reverse.take m).map (fun x => (x, true)) ∧
      repOk (popBackN d m).2 ∧
      (popBackN d m).2.toList = (d.toList.reverse.drop m).reverse ∧
      (popBackN d m).2.len = d.len - m ∧
      (popBackN d m).2.maxLen = d.maxLen := by
  induction m with
  | zero =>
    intro d h _
    exact ⟨by simp [popBackN], h, by simp [popBackN], by simp [popBackN], rfl⟩
  | succ k ih =>
    intro d h hm
    obtain ⟨p1, p2, p3, p4, p5⟩ := popBack_spec d h (by omega)
    obtain ⟨g1, g2, g3, g4, g5⟩ := ih (d.popBack).2 p2 (by omega)
    have hlen := toList_length d h
    obtain ⟨y, ys, hy⟩ : ∃ y ys, d.toList.reverse = y :: ys := by
      cases hyy : d.toList.reverse with
      | nil =>
        have : d.toList = [] := by
          have := congrArg List.reverse hyy
          simpa using this
        rw [this] at hlen
        simp at hlen
        omega
      | cons y ys => exact ⟨y, ys, rfl⟩
    have hdl : d.toList.dropLast.reverse = ys := by
      rw [← List.tail_reverse, hy]
      simp
    simp only [popBackN]
    refine ⟨?_, g2, ?_, ?_, ?_⟩
    · rw [p1, g1, p3, hy]
      have hgl : d.toList.getLastD none = y := by
        rw [List.getLastD_eq_getLast?, List.getLast?_eq_head?_reverse, hy]
        simp
      rw [hgl, ← hdl]
      simp [hdl]
    · rw [g3, p3, hdl, hy]
      simp
    · rw [g4, p4]
      omega
    · rw [g5, p5]

theorem pushBackAll_bounded {α : Type} (l : List α) :
    ∀ (d : Deque α), repOk d → 0 < d.maxLen → (d.len : Int) ≤ d.maxLen →
      repOk (pushBackAll d l) ∧
      (pushBackAll d l).toList =
        (d.toList ++ l.map some).drop (d.len + l.length - d.maxLen.toNat) ∧
      (pushBackAll d l).len = min (d.len + l.length) d.maxLen.toNat ∧
      (pushBackAll d l).maxLen = d.maxLen := by
  induction l with
  | nil =>
    intro d h hm hb
    refine ⟨h, ?_, ?_, rfl⟩
    · have hz : d.len + List.length ([] : List α) - d.maxLen.toNat = 0 := by
        simp only [List.length_nil]
        omega
      rw [hz]
      simp [pushBackAll]
    · simp only [pushBackAll, List.foldl_nil, List.length_nil]
      omega
  | cons x xs ih =>
    intro d h hm hb
    obtain ⟨h1, h2, h3, h4⟩ := pushBack_spec d x h
    have hlen := toList_length d h
    by_cases hev : d.maxLen < (d.len : Int) + 1
    · rw [if_pos ⟨hm, hev⟩] at h2 h3
      have hK : d.len = d.maxLen.toNat := by omega
      obtain ⟨g1, g2, g3, g4⟩ := ih (d.pushBack x) h1 (by rw [h4]; exact hm)
        (by rw [h3, h4]; omega)
      refine ⟨g1, ?_, ?_, ?_⟩
      · show (pushBackAll (d.pushBack x) xs).toList = _
        simp only [List.map_cons, List.length_cons]
        rw [g2, h2, h3, h4]
        have e1 : (d.toList ++ [some x]).tail ++ xs.map some
            = ((d.toList ++ [some x]) ++ xs.map some).drop 1 := by
          rw [List.drop_append_of_le_length (by simp), List.drop_one]
        rw [e1, List.drop_drop,
          show (d.toList ++ [some x]) ++ xs.map some
            = d.toList ++ (some x :: xs.map some) by simp]
        congr 1
        omega
      · show (pushBackAll (d.pushBack x) xs).len = _
        rw [g3, h3, h4]
        simp only [List.length_cons]
        omega
      · show (pushBackAll (d.pushBack x) xs).maxLen = _
        rw [g4, h4]
    · have hcond : ¬(0 < d.maxLen ∧ d.maxLen < (d.len : Int) + 1) := by omega
      rw [if_neg hcond] at h2 h3
      obtain ⟨g1, g2, g3, g4⟩ := ih (d.pushBack x) h1 (by rw [h4]; exact hm)
        (by rw [h3, h4]; push_cast; omega)
      refine ⟨g1, ?_, ?_, ?_⟩
      · show (pushBackAll (d.pushBack x) xs).toList = _
        simp only [List.map_cons, List.length_cons]
        rw [g2, h2, h3, h4,
          show (d.toList ++ [some x]) ++ xs.map some
            = d.toList ++ (some x :: xs.map some) by simp]
        congr 1
        omega
      · show (pushBackAll (d.pushBack x) xs).len = _
        rw [g3, h3, h4]
        simp only [List.length_cons]
        omega
      · show (pushBackAll (d.pushBack x) xs).maxLen = _
        rw [g4, h4]

theorem popFront_empty {α : Type} (d : Deque α) (h : d.len = 0) :
    d.popFront = ((none, false), d) := by
  unfold Deque.popFront
  rw [if_pos (by omega)]

theorem popBack_empty {α : Type} (d : Deque α) (h : d.len = 0) :
    d.popBack = ((none, false), d) := by
  unfold Deque.popBack
  rw [if_pos (by omega)]

/-- The four mutating operations, for quantifying over op sequences. -/
inductive DequeOp (α : Type) where
  | pushBack (v : α)
  | pushFront (v : α)
  | popBack
  | popFront
deriving DecidableEq

/-- Run one operation: post-state, plus the returned pair for pops. -/
def applyOp {α : Type} (d : Deque α) : DequeOp α → Deque α × Option (Option α × Bool)
  | DequeOp.pushBack v => (d.pushBack v, none)
  | DequeOp.pushFront v => (d.pushFront v, none)
  | DequeOp.popBack => ((d.popBack).2, some (d.popBack).1)
  | DequeOp.popFront => ((d.popFront).2, some (d.popFront).1)

/-- Run a sequence of operations from a state. -/
def runOps {α : Type} (d : Deque α) : List (DequeOp α) → Deque α
  | [] => d
  | op :: ops => runOps (applyOp d op).1 ops

/-- Number of push operations in a sequence. -/
def countPushes {α : Type} : List (DequeOp α) → Nat
  | [] => 0
  | DequeOp.pushBack _ :: ops => countPushes ops + 1
  | DequeOp.pushFront _ :: ops => countPushes ops + 1
  | DequeOp.popBack :: ops => countPushes ops
  | DequeOp.popFront :: ops => countPushes ops

/-- Number of successful pops (present flag `true`) along a run. -/
def succPops {α : Type} (d : Deque α) : List (DequeOp α) → Nat
  | [] => 0
  | op :: ops =>
    (match (applyOp d op).2 with
     | some (_, true) => 1
     | _ => 0) + succPops (applyOp d op).1 ops

/-- The capacity bound: when a maximum length is configured, the length
respects it. -/
def boundOk {α : Type} (d : Deque α) : Prop :=
  0 < d.maxLen → (d.len : Int) ≤ d.maxLen

theorem applyOp_inv {α : Type} (d : Deque α) (op : DequeOp α)
    (h : repOk d) (hb : boundOk d) :
    repOk (applyOp d op).1 ∧ boundOk (applyOp d op).1 ∧
    (applyOp d op).1.maxLen = d.maxLen := by
  cases op with
  | pushBack v =>
    obtain ⟨h1, h2, h3, h4⟩ := pushBack_spec d v h
    refine ⟨h1, ?_, h4⟩
    intro hpos
    show ((applyOp d (DequeOp.pushBack v)).1.len : Int) ≤ _
    rw [show (applyOp d (DequeOp.pushBack v)).1 = d.pushBack v from rfl] at hpos ⊢
    rw [h4] at hpos
    rw [h3, h4]
    by_cases hev : 0 < d.maxLen ∧ d.maxLen < (d.len : Int) + 1
    · rw [if_pos hev]
      exact hb hpos
    · rw [if_neg hev]
      push_cast
      omega
  | pushFront v =>
    obtain ⟨h1, h2, h3, h4⟩ := pushFront_spec d v h
    refine ⟨h1, ?_, h4⟩
    intro hpos
    show ((applyOp d (DequeOp.pushFront v)).1.len : Int) ≤ _
    rw [show (applyOp d (DequeOp.pushFront v)).1 = d.pushFront v from rfl] at hpos ⊢
    rw [h4] at hpos
    rw [h3, h4]
    by_cases hev : 0 < d.maxLen ∧ d.maxLen < (d.len : Int) + 1
    · rw [if_pos hev]
      exact hb hpos
    · rw [if_neg hev]
      push_cast
      omega
  | popBack =>
    by_cases h0 : d.len = 0
    · simp only [applyOp, popBack_empty d h0]
      exact ⟨h, hb, trivial⟩
    · obtain ⟨p1, p2, p3, p4, p5⟩ := popBack_spec d h (by omega)
      refine ⟨p2, ?_, p5⟩
      intro hpos
      simp only [applyOp] at hpos ⊢
      rw [p5] at hpos
      rw [p4, p5]
      have := hb hpos
      omega
  | popFront =>
    by_cases h0 : d.len = 0
    · simp only [applyOp, popFront_empty d h0]
      exact ⟨h, hb, trivial⟩
    · obtain ⟨p1, p2, p3, p4, p5⟩ := popFront_spec d h (by omega)
      refine ⟨p2, ?_, p5⟩
      intro hpos
      simp only [applyOp] at hpos ⊢
      rw [p5] at hpos
      rw [p4, p5]
      have := hb hpos
      omega

theorem runOps_inv {α : Type} (ops : List (DequeOp α)) :
    ∀ d : Deque α, repOk d → boundOk d →
      repOk (runOps d ops) ∧ boundOk (runOps d ops) ∧
      (runOps d ops).maxLen = d.maxLen := by
  induction ops with
  | nil => intro d h hb; exact ⟨h, hb, rfl⟩
  | cons op ops ih =>
    intro d h hb
    obtain ⟨a1, a2, a3⟩ := applyOp_inv d op h hb
    obtain ⟨g1, g2, g3⟩ := ih (applyOp d op).1 a1 a2
    exact ⟨g1, g2, by rw [show runOps d (op :: ops) = runOps (applyOp d op).1 ops from rfl, g3, a3]⟩

theorem runOps_len {α : Type} (ops : List (DequeOp α)) :
    ∀ d : Deque α, repOk d → d.maxLen ≤ 0 →
      (runOps d ops).len + succPops d ops = d.len + countPushes ops := by
  induction ops with
  | nil =>
    intro d _ _
    simp [runOps, succPops, countPushes]
  | cons op ops ih =>
    intro d h hm
    cases op with
    | pushBack v =>
      obtain ⟨h1, h2, h3, h4⟩ := pushBack_spec d v h
      have hcond : ¬(0 < d.maxLen ∧ d.maxLen < (d.len : Int) + 1) := by omega
      rw [if_neg hcond] at h3
      have hih := ih (d.pushBack v) h1 (by rw [h4]; exact hm)
      simp only [runOps, succPops, countPushes, applyOp] at hih ⊢
      omega
    | pushFront v =>
      obtain ⟨h1, h2, h3, h4⟩ := pushFront_spec d v h
      have hcond : ¬(0 < d.maxLen ∧ d.maxLen < (d.len : Int) + 1) := by omega
      rw [if_neg hcond] at h3
      have hih := ih (d.pushFront v) h1 (by rw [h4]; exact hm)
      simp only [runOps, succPops, countPushes, applyOp] at hih ⊢
      omega
    | popBack =>
      by_cases h0 : d.len = 0
      · have hpb := popBack_empty d h0
        have hih := ih d h hm
        simp only [runOps, succPops, countPushes, applyOp, hpb] at hih ⊢
        omega
      · obtain ⟨p1, p2, p3, p4, p5⟩ := popBack_spec d h (by omega)
        have hih := ih (d.popBack).2 p2 (by rw [p5]; exact hm)
        simp only [runOps, succPops, countPushes, applyOp, p1] at hih ⊢
        omega
    | popFront =>
      by_cases h0 : d.len = 0
      · have hpf := popFront_empty d h0
        have hih := ih d h hm
        simp only [runOps, succPops, countPushes, applyOp, hpf] at hih ⊢
        omega
      · obtain ⟨p1, p2, p3, p4, p5⟩ := popFront_spec d h (by omega)
        have hih := ih (d.popFront).2 p2 (by rw [p5]; exact hm)
        simp only [runOps, succPops, countPushes, applyOp, p1] at hih ⊢
        omega

theorem NewDeque_maxLen {α : Type} : (NewDeque α).maxLen = 0 := rfl

theorem NewDequeWithMaxLen_maxLen {α : Type} (m : Int) :
    (NewDequeWithMaxLen α m).maxLen = m := rfl

theorem NewDeque_len {α : Type} : (NewDeque α).len = 0 := rfl

theorem NewDequeWithMaxLen_len {α : Type} (m : Int) :
    (NewDequeWithMaxLen α m).len = 0 := rfl

theorem boundOk_new {α : Type} (m : Int) : boundOk (NewDequeWithMaxLen α m) := by
  intro h
  rw [NewDequeWithMaxLen_maxLen] at h
  rw [NewDequeWithMaxLen_len, NewDequeWithMaxLen_maxLen]
  omega

theorem toList_eq_nil_of_len_zero {α : Type} (d : Deque α) (h : repOk d)
    (h0 : d.len = 0) : d.toList = [] := by
  have := toList_length d h
  rw [h0] at this
  exact List.length_eq_zero.mp this

/-- In a reachable empty state there is exactly one block and the cursors are
crossed, with both in range. -/
theorem repOk_empty_state {α : Type} (d : Deque α) (h : repOk d) (h0 : d.len = 0) :
    d.blocks.length = 1 ∧ d.frontIdx = d.backIdx + 1 ∧
    1 ≤ d.frontIdx ∧ d.frontIdx ≤ (blockLen : Int) - 1 := by
  obtain ⟨hne, hblk, hf0, hf64, hb0, hb64, hcnt⟩ := h
  have hk1 : 1 ≤ d.blocks.length := List.length_pos.mpr hne
  rw [h0] at hcnt
  simp only [blockLen] at hf64 hb64 hcnt ⊢
  push_cast at hcnt ⊢
  have hk : d.blocks.length = 1 := by omega
  rw [hk] at hcnt
  push_cast at hcnt
  refine ⟨hk, by omega, by omega, by omega⟩

/-- A push into a reachable empty state succeeds and yields the one-element
sequence, whatever the bound is. -/
theorem push_on_empty {α : Type} (d : Deque α) (h : repOk d) (h0 : d.len = 0) (v : α) :
    (d.pushBack v).toList = [some v] ∧ (d.pushBack v).len = 1 ∧
    (d.pushFront v).toList = [some v] ∧ (d.pushFront v).len = 1 := by
  have htl := toList_eq_nil_of_len_zero d h h0
  have hcond : ¬(0 < d.maxLen ∧ d.maxLen < (d.len : Int) + 1) := by
    rw [h0]
    rintro ⟨hp, hq⟩
    omega
  obtain ⟨b1, b2, b3, b4⟩ := pushBack_spec d v h
  obtain ⟨f1, f2, f3, f4⟩ := pushFront_spec d v h
  rw [if_neg hcond] at b2 b3 f2 f3
  rw [b2, f2, b3, f3, htl, h0]
  simp

/-- One-sided operations: push a value or pop, on a single end. -/
inductive EndOp (α : Type) where
  | push (v : α)
  | pop
deriving DecidableEq

/-- Run one-sided operations on the back end, collecting pop results. -/
def runBackSide {α : Type} (d : Deque α) : List (EndOp α) → List (Option α × Bool)
  | [] => []
  | EndOp.push v :: ops => runBackSide (d.pushBack v) ops
  | EndOp.pop :: ops => (d.popBack).1 :: runBackSide (d.popBack).2 ops

/-- Run one-sided operations on the front end, collecting pop results. -/
def runFrontSide {α : Type} (d : Deque α) : List (EndOp α) → List (Option α × Bool)
  | [] => []
  | EndOp.push v :: ops => runFrontSide (d.pushFront v) ops
  | EndOp.pop :: ops => (d.popFront).1 :: runFrontSide (d.popFront).2 ops

/-- Reference LIFO stack: push puts the value on top, pop takes the top. -/
def runStack {α : Type} (st : List (Option α)) : List (EndOp α) → List (Option α × Bool)
  | [] => []
  | EndOp.push v :: ops => runStack (some v :: st) ops
  | EndOp.pop :: ops =>
    match st with
    | [] => (none, false) :: runStack [] ops
    | x :: rest => (x, true) :: runStack rest ops

theorem runBackSide_stack {α : Type} (ops : List (EndOp α)) :
    ∀ d : Deque α, repOk d → d.maxLen ≤ 0 →
      runBackSide d ops = runStack d.toList.reverse ops := by
  induction ops with
  | nil =>
    intro d _ _
    simp [runBackSide, runStack]
  | cons op ops ih =>
    intro d h hm
    cases op with
    | push v =>
      obtain ⟨h1, h2, h3, h4⟩ := pushBack_spec d v h
      have hcond : ¬(0 < d.maxLen ∧ d.maxLen < (d.len : Int) + 1) := by omega
      rw [if_neg hcond] at h2
      simp only [runBackSide, runStack]
      rw [ih (d.pushBack v) h1 (by rw [h4]; exact hm), h2]
      simp
    | pop =>
      by_cases h0 : d.len = 0
      · have htl := toList_eq_nil_of_len_zero d h h0
        have hpb := popBack_empty d h0
        simp only [runBackSide, runStack, hpb, htl, List.reverse_nil]
        rw [ih d h hm, htl, List.reverse_nil]
      · obtain ⟨p1, p2, p3, p4, p5⟩ := popBack_spec d h (by omega)
        have hlen := toList_length d h
        obtain ⟨y, ys, hy⟩ : ∃ y ys, d.toList.reverse = y :: ys := by
          cases hyy : d.toList.reverse with
          | nil =>
            have hnil : d.toList = [] := by
              have := congrArg List.reverse hyy
              simpa using this
            rw [hnil] at hlen
            simp at hlen
            omega
          | cons y ys => exact ⟨y, ys, rfl⟩
        have hdl : d.toList.dropLast.reverse = ys := by
          rw [← List.tail_reverse, hy]
          simp
        have hgl : d.toList.getLastD none = y := by
          rw [List.getLastD_eq_getLast?, List.getLast?_eq_head?_reverse, hy]
          simp
        simp only [runBackSide, runStack, hy]
        rw [p1, hgl, ih (d.popBack).2 p2 (by rw [p5]; exact hm), p3, hdl]

theorem runFrontSide_stack {α : Type} (ops : List (EndOp α)) :
    ∀ d : Deque α, repOk d → d.maxLen ≤ 0 →
      runFrontSide d ops = runStack d.toList ops := by
  induction ops with
  | nil =>
    intro d _ _
    simp [runFrontSide, runStack]
  | cons op ops ih =>
    intro d h hm
    cases op with
    | push v =>
      obtain ⟨h1, h2, h3, h4⟩ := pushFront_spec d v h
      have hcond : ¬(0 < d.maxLen ∧ d.maxLen < (d.len : Int) + 1) := by omega
      rw [if_neg hcond] at h2
      simp only [runFrontSide, runStack]
      rw [ih (d.pushFront v) h1 (by rw [h4]; exact hm), h2]
    | pop =>
      by_cases h0 : d.len = 0
      · have htl := toList_eq_nil_of_len_zero d h h0
        have hpf := popFront_empty d h0
        simp only [runFrontSide, runStack, hpf, htl]
        rw [ih d h hm, htl]
      · obtain ⟨p1, p2, p3, p4, p5⟩ := popFront_spec d h (by omega)
        have hlen := toList_length d h
        obtain ⟨y, ys, hy⟩ : ∃ y ys, d.toList = y :: ys := by
          cases hyy : d.toList with
          | nil => rw [hyy] at hlen; simp at hlen; omega
          | cons y ys => exact ⟨y, ys, rfl⟩
        have hhd : d.toList.headD none = y := by rw [hy]; rfl
        simp only [runFrontSide, runStack, hy]
        rw [p1, hhd, ih (d.popFront).2 p2 (by rw [p5]; exact hm), p3, hy]
        simp

instance repOk_decidable {α : Type} [DecidableEq α] (d : Deque α) :
    Decidable (repOk d) := by
  unfold repOk
  exact inferInstance

theorem repOk_NewDeque {α : Type} : repOk (NewDeque α) := repOk_new 0

theorem toList_NewDeque {α : Type} : (NewDeque α).toList = [] := toList_new 0

theorem push_len_bounded {α : Type} (S : Deque α) (v : α) (K : Int) (hK : 0 < K)
    (h : repOk S) (hmx : S.maxLen = K) (hb : (S.len : Int) ≤ K) :
    ((S.pushBack v).len : Int) ≤ K ∧ ((S.pushFront v).len : Int) ≤ K ∧
    ((S.pushBack v).len = S.len + 1 ∨ (S.pushBack v).len = S.len) ∧
    ((S.pushFront v).len = S.len + 1 ∨ (S.pushFront v).len = S.len) := by
  obtain ⟨b1, b2, b3, b4⟩ := pushBack_spec S v h
  obtain ⟨f1, f2, f3, f4⟩ := pushFront_spec S v h
  by_cases hev : 0 < S.maxLen ∧ S.maxLen < (S.len : Int) + 1
  · rw [if_pos hev] at b3 f3
    rw [b3, f3]
    exact ⟨hb, hb, Or.inr rfl, Or.inr rfl⟩
  · rw [if_neg hev] at b3 f3
    rw [b3, f3]
    refine ⟨?_, ?_, Or.inl rfl, Or.inl rfl⟩ <;> push_cast <;> omega

/-- Claim C1: on a fresh unbounded deque, N `PushBack`s followed by N
`PopFront`s return exactly the pushed values in push order (FIFO); N
`PushFront`s followed by N `PopBack`s likewise; and any mixed push/pop
sequence confined to a single end (back resp. front) produces exactly the
outputs of a reference LIFO stack. -/
theorem C1_fifo_and_single_end_lifo (l : List Nat) (ops : List (EndOp Nat)) :
    (popFrontN (pushBackAll (NewDeque Nat) l) l.length).1
        = l.map (fun v => (some v, true)) ∧
    (popBackN (pushFrontAll (NewDeque Nat) l) l.length).1
        = l.map (fun v => (some v, true)) ∧
    runBackSide (NewDeque Nat) ops = runStack [] ops ∧
    runFrontSide (NewDeque Nat) ops = runStack [] ops := by
  obtain ⟨b1, b2, b3, b4⟩ := pushBackAll_unbounded l (NewDeque Nat) repOk_NewDeque
    (by rw [NewDeque_maxLen])
  obtain ⟨f1, f2, f3, f4⟩ := pushFrontAll_unbounded l (NewDeque Nat) repOk_NewDeque
    (by rw [NewDeque_maxLen])
  rw [toList_NewDeque] at b2 f2
  simp only [List.nil_append, List.append_nil] at b2 f2
  have hlb : (pushBackAll (NewDeque Nat) l).len = l.length := by
    rw [b3, NewDeque_len]
    omega
  have hlf : (pushFrontAll (NewDeque Nat) l).len = l.length := by
    rw [f3, NewDeque_len]
    omega
  refine ⟨?_, ?_, ?_, ?_⟩
  · obtain ⟨o1, _, _, _, _⟩ := popFrontN_spec l.length _ b1 (by rw [hlb])
    rw [o1, b2, List.take_of_length_le (by simp)]
    simp [List.map_map]
  · obtain ⟨o1, _, _, _, _⟩ := popBackN_spec l.length _ f1 (by rw [hlf])
    rw [o1, f2, List.reverse_reverse, List.take_of_length_le (by simp)]
    simp [List.map_map]
  · rw [runBackSide_stack ops _ repOk_NewDeque (by rw [NewDeque_maxLen]),
      toList_NewDeque, List.reverse_nil]
  · rw [runFrontSide_stack ops _ repOk_NewDeque (by rw [NewDeque_maxLen]),
      toList_NewDeque]

/-- Claim C2: on a deque bounded to K > 0, pushing more than K values to the
back leaves exactly the K most recent values, in push order, with length K;
and at capacity a `PushBack` evicts the front element (the list becomes the
tail of the appended list) while a `PushFront` evicts the back element (the
list becomes the appended list without its last element), the evicted value
being discarded. -/
theorem C2_bounded_eviction (K : Int) (hK : 0 < K) (l : List Nat)
    (hl : K.toNat < l.length) :
    (pushBackAll (NewDequeWithMaxLen Nat K) l).Len = K.toNat ∧
    (pushBackAll (NewDequeWithMaxLen Nat K) l).toList
        = (l.map some).drop (l.length - K.toNat) ∧
    (∀ d : Deque Nat, repOk d → d.maxLen = K → (d.len : Int) = K → ∀ v : Nat,
      (d.pushBack v).toList = (d.toList ++ [some v]).tail ∧
      (d.pushBack v).len = d.len ∧
      (d.pushFront v).toList = (some v :: d.toList).dropLast ∧
      (d.pushFront v).len = d.len) := by
  obtain ⟨g1, g2, g3, g4⟩ := pushBackAll_bounded l (NewDequeWithMaxLen Nat K)
    (repOk_new K) (by rw [NewDequeWithMaxLen_maxLen]; exact hK)
    (by rw [NewDequeWithMaxLen_len, NewDequeWithMaxLen_maxLen]; omega)
  refine ⟨?_, ?_, ?_⟩
  · show (pushBackAll (NewDequeWithMaxLen Nat K) l).len = K.toNat
    rw [g3, NewDequeWithMaxLen_len, NewDequeWithMaxLen_maxLen]
    omega
  · rw [g2, toList_new, NewDequeWithMaxLen_len, NewDequeWithMaxLen_maxLen]
    simp
  · intro d hd hmx hfull v
    have hev : 0 < d.maxLen ∧ d.maxLen < (d.len : Int) + 1 := by
      rw [hmx]
      exact ⟨hK, by omega⟩
    obtain ⟨b1, b2, b3, b4⟩ := pushBack_spec d v hd
    obtain ⟨f1, f2, f3, f4⟩ := pushFront_spec d v hd
    rw [if_pos hev] at b2 b3 f2 f3
    exact ⟨b2, b3, f2, f3⟩

theorem C2_bounded_eviction_witness :
    (0 : Int) < 1 ∧ (1 : Int).toNat < ([1, 2] : List Nat).length ∧
    (pushBackAll (NewDequeWithMaxLen Nat 1) [1, 2]).Len = (1 : Int).toNat :=
  ⟨by decide, by decide, (C2_bounded_eviction 1 (by decide) [1, 2] (by decide)).1⟩

/-- Claim C3: popping either end of a deque whose length is 0 returns the
not-present pair `(none, false)`, does not panic, and leaves the state
completely unchanged (so `Len` stays 0 and later operations behave as if the
failed pop never happened). -/
theorem C3_empty_pops (d : Deque Nat) (h : d.Len = 0) :
    d.popFront = ((none, false), d) ∧ d.popBack = ((none, false), d) ∧
    (d.popFront).2.Len = 0 ∧ (d.popBack).2.Len = 0 := by
  have h' : d.len = 0 := h
  refine ⟨popFront_empty d h', popBack_empty d h', ?_, ?_⟩
  · rw [popFront_empty d h']
    exact h
  · rw [popBack_empty d h']
    exact h

theorem C3_empty_pops_witness :
    (NewDeque Nat).Len = 0 ∧
    (NewDeque Nat).popFront = ((none, false), NewDeque Nat) :=
  ⟨by decide, (C3_empty_pops (NewDeque Nat) (by decide)).1⟩

/-- Claim C4, counterexample: after `PushBack 1` then `PopFront` on a fresh
deque the length is 0 but the cursors are NOT at the recentred neutral
position (`frontIdx = blockCenter + 1 = 32`): the emptying pop did not cross
a block boundary, so no recentring happens and `frontIdx = 33`. -/
theorem C4_counterexample :
    (runOps (NewDeque Nat) [DequeOp.pushBack 1, DequeOp.popFront]).len = 0 ∧
    ¬((runOps (NewDeque Nat) [DequeOp.pushBack 1, DequeOp.popFront]).frontIdx
        = (blockCenter : Int) + 1 ∧
      (runOps (NewDeque Nat) [DequeOp.pushBack 1, DequeOp.popFront]).backIdx
        = (blockCenter : Int)) := by
  decide

/-- Claim C4, amended: in every state reachable from a fresh deque in which
length is 0 there is exactly one block node and the cursors are crossed
(`frontIdx = backIdx + 1`, both in range) — at the recentred centre exactly
when the emptying pop wrapped a block boundary, not in general — and the next
push to either end lands inside the sole block: it succeeds and yields the
one-element sequence, as from a fresh deque. -/
theorem C4_empty_state_amended (ops : List (DequeOp Nat))
    (h0 : (runOps (NewDeque Nat) ops).len = 0) :
    (runOps (NewDeque Nat) ops).blocks.length = 1 ∧
    (runOps (NewDeque Nat) ops).frontIdx = (runOps (NewDeque Nat) ops).backIdx + 1 ∧
    1 ≤ (runOps (NewDeque Nat) ops).frontIdx ∧
    (runOps (NewDeque Nat) ops).frontIdx ≤ (blockLen : Int) - 1 ∧
    (∀ v : Nat, ((runOps (NewDeque Nat) ops).pushBack v).toList = [some v] ∧
      ((runOps (NewDeque Nat) ops).pushFront v).toList = [some v]) := by
  obtain ⟨r1, r2, r3⟩ := runOps_inv ops (NewDeque Nat) repOk_NewDeque (boundOk_new 0)
  obtain ⟨e1, e2, e3, e4⟩ := repOk_empty_state _ r1 h0
  refine ⟨e1, e2, e3, e4, ?_⟩
  intro v
  obtain ⟨p1, p2, p3, p4⟩ := push_on_empty _ r1 h0 v
  exact ⟨p1, p3⟩

theorem C4_empty_state_amended_witness :
    (runOps (NewDeque Nat) []).len = 0 ∧
    (runOps (NewDeque Nat) []).blocks.length = 1 :=
  ⟨by decide, (C4_empty_state_amended [] (by decide)).1⟩

/-- Claim C5: with a positive maximum length K, after any operation sequence
from a fresh bounded deque, a push to either end leaves the length at most K
(the bound is kept by eviction, the push itself never fails), and every push
either increments the length by one or preserves it. -/
theorem C5_bound_invariant (K : Int) (hK : 0 < K) (ops : List (DequeOp Nat)) (v : Nat) :
    (((runOps (NewDequeWithMaxLen Nat K) ops).pushBack v).Len : Int) ≤ K ∧
    (((runOps (NewDequeWithMaxLen Nat K) ops).pushFront v).Len : Int) ≤ K ∧
    (((runOps (NewDequeWithMaxLen Nat K) ops).pushBack v).Len
        = (runOps (NewDequeWithMaxLen Nat K) ops).Len + 1 ∨
      ((runOps (NewDequeWithMaxLen Nat K) ops).pushBack v).Len
        = (runOps (NewDequeWithMaxLen Nat K) ops).Len) ∧
    (((runOps (NewDequeWithMaxLen Nat K) ops).pushFront v).Len
        = (runOps (NewDequeWithMaxLen Nat K) ops).Len + 1 ∨
      ((runOps (NewDequeWithMaxLen Nat K) ops).pushFront v).Len
        = (runOps (NewDequeWithMaxLen Nat K) ops).Len) := by
  obtain ⟨r1, r2, r3⟩ := runOps_inv ops (NewDequeWithMaxLen Nat K)
    (repOk_new K) (boundOk_new K)
  rw [NewDequeWithMaxLen_maxLen] at r3
  have hb : ((runOps (NewDequeWithMaxLen Nat K) ops).len : Int) ≤ K := by
    have := r2 (by rw [r3]; exact hK)
    rw [r3] at this
    exact this
  exact push_len_bounded _ v K hK r1 r3 hb

theorem C5_bound_invariant_witness :
    (0 : Int) < 1 ∧
    (((runOps (NewDequeWithMaxLen Nat 1) []).pushBack 7).Len : Int) ≤ 1 :=
  ⟨by decide, (C5_bound_invariant 1 (by decide) [] 7).1⟩

/-- Claim C6: round-trip on a fresh unbounded deque; pushing the values of a
list at one end and popping the same number of times from the same end
returns them in reverse insertion order, while popping from the opposite end
returns them in insertion order, each with a present flag. -/
theorem C6_round_trip (l : List Nat) :
    (popBackN (pushBackAll (NewDeque Nat) l) l.length).1
        = l.reverse.map (fun v => (some v, true)) ∧
    (popFrontN (pushFrontAll (NewDeque Nat) l) l.length).1
        = l.reverse.map (fun v => (some v, true)) ∧
    (popFrontN (pushBackAll (NewDeque Nat) l) l.length).1
        = l.map (fun v => (some v, true)) ∧
    (popBackN (pushFrontAll (NewDeque Nat) l) l.length).1
        = l.map (fun v => (some v, true)) := by
  obtain ⟨b1, b2, b3, b4⟩ := pushBackAll_unbounded l (NewDeque Nat) repOk_NewDeque
    (by rw [NewDeque_maxLen])
  obtain ⟨f1, f2, f3, f4⟩ := pushFrontAll_unbounded l (NewDeque Nat) repOk_NewDeque
    (by rw [NewDeque_maxLen])
  rw [toList_NewDeque] at b2 f2
  simp only [List.nil_append, List.append_nil] at b2 f2
  have hlb : (pushBackAll (NewDeque Nat) l).len = l.length := by
    rw [b3, NewDeque_len]
    omega
  have hlf : (pushFrontAll (NewDeque Nat) l).len = l.length := by
    rw [f3, NewDeque_len]
    omega
  refine ⟨?_, ?_, ?_, ?_⟩
  · obtain ⟨o1, _, _, _, _⟩ := popBackN_spec l.length _ b1 (by rw [hlb])
    rw [o1, b2, List.take_of_length_le (by simp)]
    simp [List.map_map]
  · obtain ⟨o1, _, _, _, _⟩ := popFrontN_spec l.length _ f1 (by rw [hlf])
    rw [o1, f2, List.take_of_length_le (by simp)]
    simp [List.map_map]
  · obtain ⟨o1, _, _, _, _⟩ := popFrontN_spec l.length _ b1 (by rw [hlb])
    rw [o1, b2, List.take_of_length_le (by simp)]
    simp [List.map_map]
  · obtain ⟨o1, _, _, _, _⟩ := popBackN_spec l.length _ f1 (by rw [hlf])
    rw [o1, f2, List.reverse_reverse, List.take_of_length_le (by simp)]
    simp [List.map_map]

/-- Claim C7: `Each` performs a forward front-to-back traversal visiting
each stored element exactly once in order (it produces exactly the abstract
element sequence), in particular visiting 1, 2, 3 on a deque built by three
`PushBack`s, also when the elements span more than one block (70 pushed
elements span two blocks). -/
theorem C7_each_traversal (d : Deque Nat) (h : repOk d) :
    d.each = d.toList ∧
    (pushBackAll (NewDeque Nat) [1, 2, 3]).each = [some 1, some 2, some 3] ∧
    (pushBackAll (NewDeque Nat) (List.range 70)).each
        = (List.range 70).map some := by
  refine ⟨each_eq_toList d h, ?_, ?_⟩
  · obtain ⟨g1, g2, _, _⟩ := pushBackAll_unbounded [1, 2, 3] (NewDeque Nat)
      repOk_NewDeque (by rw [NewDeque_maxLen])
    rw [each_eq_toList _ g1, g2, toList_NewDeque]
    rfl
  · obtain ⟨g1, g2, _, _⟩ := pushBackAll_unbounded (List.range 70) (NewDeque Nat)
      repOk_NewDeque (by rw [NewDeque_maxLen])
    rw [each_eq_toList _ g1, g2, toList_NewDeque]
    simp

theorem C7_each_traversal_witness :
    repOk (NewDeque Nat) ∧ (NewDeque Nat).each = (NewDeque Nat).toList :=
  ⟨by decide, (C7_each_traversal (NewDeque Nat) (by decide)).1⟩

/-- Claim C8: on an unbounded deque run from empty, after any operation
sequence `Len` equals the number of pushes minus the number of successful
pops (`Len` itself is a pure observer: it is a function of the state and
returns the stored length without changing anything). -/
theorem C8_len_accounting (ops : List (DequeOp Nat)) :
    (runOps (NewDeque Nat) ops).Len + succPops (NewDeque Nat) ops
      = countPushes ops := by
  have h := runOps_len ops (NewDeque Nat) repOk_NewDeque (by rw [NewDeque_maxLen])
  rw [NewDeque_len] at h
  show (runOps (NewDeque Nat) ops).len + succPops (NewDeque Nat) ops = countPushes ops
  omega

/-- Claim C9: a non-positive max length means unbounded — no push ever evicts
(each push appends/prepends and increments the length); `NewDeque` is the
same deque as `NewDequeWithMaxLen 0`; and the max-length configuration is
fixed at construction: it survives every operation sequence unchanged. -/
theorem C9_unbounded_config (m : Int) (hm : m ≤ 0) (d : Deque Nat) (h : repOk d)
    (hd : d.maxLen = m) (v : Nat) (ops : List (DequeOp Nat)) :
    NewDeque Nat = NewDequeWithMaxLen Nat 0 ∧
    (d.pushBack v).Len = d.Len + 1 ∧
    (d.pushBack v).toList = d.toList ++ [some v] ∧
    (d.pushFront v).Len = d.Len + 1 ∧
    (d.pushFront v).toList = some v :: d.toList ∧
    (runOps (NewDequeWithMaxLen Nat m) ops).maxLen = m := by
  have hcond : ¬(0 < d.maxLen ∧ d.maxLen < (d.len : Int) + 1) := by omega
  obtain ⟨b1, b2, b3, b4⟩ := pushBack_spec d v h
  obtain ⟨f1, f2, f3, f4⟩ := pushFront_spec d v h
  rw [if_neg hcond] at b2 b3 f2 f3
  obtain ⟨r1, r2, r3⟩ := runOps_inv ops (NewDequeWithMaxLen Nat m)
    (repOk_new m) (boundOk_new m)
  exact ⟨rfl, b3, b2, f3, f2, by rw [r3, NewDequeWithMaxLen_maxLen]⟩

theorem C9_unbounded_config_witness :
    (0 : Int) ≤ 0 ∧ repOk (NewDeque Nat) ∧ (NewDeque Nat).maxLen = 0 ∧
    NewDeque Nat = NewDequeWithMaxLen Nat 0 :=
  ⟨by decide, by decide, by decide,
    (C9_unbounded_config 0 (by decide) (NewDeque Nat) (by decide) (by decide) 0 []).1⟩

/-- Claim C10: after every completed operation from a fresh deque (any max
length), both cursors lie in `[0, 64)`; whenever the length is 0 the cursors
are crossed with `frontIdx = backIdx + 1` (not necessarily at the block
centre); and under this invariant every `Each` slot access is in bounds and
the traversal returns exactly the stored sequence. -/
theorem C10_cursor_invariant (m : Int) (ops : List (DequeOp Nat)) :
    0 ≤ (runOps (NewDequeWithMaxLen Nat m) ops).frontIdx ∧
    (runOps (NewDequeWithMaxLen Nat m) ops).frontIdx < (blockLen : Int) ∧
    0 ≤ (runOps (NewDequeWithMaxLen Nat m) ops).backIdx ∧
    (runOps (NewDequeWithMaxLen Nat m) ops).backIdx < (blockLen : Int) ∧
    ((runOps (NewDequeWithMaxLen Nat m) ops).len = 0 →
      (runOps (NewDequeWithMaxLen Nat m) ops).frontIdx
        = (runOps (NewDequeWithMaxLen Nat m) ops).backIdx + 1) ∧
    (runOps (NewDequeWithMaxLen Nat m) ops).each
      = (runOps (NewDequeWithMaxLen Nat m) ops).toList := by
  obtain ⟨r1, r2, r3⟩ := runOps_inv ops (NewDequeWithMaxLen Nat m)
    (repOk_new m) (boundOk_new m)
  have r1' := r1
  obtain ⟨hne, hblk, hf0, hf64, hb0, hb64, hcnt⟩ := r1'
  refine ⟨hf0, hf64, hb0, hb64, ?_, each_eq_toList _ r1⟩
  intro h0
  exact (repOk_empty_state _ r1 h0).2.1

example :
    ((((NewDeque Nat).pushBack 1).pushBack 2).popFront).1 = (some 1, true) := by
  decide

example :
    ((((NewDeque Nat).pushFront 1).pushFront 2).popBack).1 = (some 1, true) := by
  decide

example :
    ((((NewDeque Nat).pushBack 1).pushBack 2).pushBack 3).each =
      [some 1, some 2, some 3] := by
  decide
